import Mathlib

/-!
Verification of the core text-processing pipeline of the custom_voicebot
repository (`src/API_1/pdf_processor.py` and `src/API_1/app.py`).

Text is modelled as `List Char`.  The tiktoken tokenizer is modelled as an
abstract pair of functions `encode`/`decode`; concrete instances are used for
witnesses and counterexamples.  Rational numbers stand in for the Python
floats of the similarity path; the square root of `numpy.linalg.norm` is an
abstract function parameter.
-/

/-- Characters matched by Python's `\s` regex class and stripped by
`str.strip()` (ASCII fragment). -/
def isPySpace (c : Char) : Bool :=
  c = ' ' || c = '\t' || c = '\n' || c = '\r' || c = '\x0b' || c = '\x0c'

/-- Python `str.strip()`: drop whitespace from both ends. -/
def trim (l : List Char) : List Char :=
  ((l.dropWhile isPySpace).reverse.dropWhile isPySpace).reverse

/-- Worker for `re.sub(r' +', ' ', text)`: the flag records whether we are
inside a run of spaces whose first space has already been emitted. -/
def collapseSpacesAux : Bool → List Char → List Char
  | _, [] => []
  | inRun, c :: rest =>
    if c = ' ' then
      if inRun then collapseSpacesAux true rest
      else ' ' :: collapseSpacesAux true rest
    else c :: collapseSpacesAux false rest

/-- `re.sub(r' +', ' ', text)`: collapse each maximal run of spaces to one. -/
def collapseSpaces (l : List Char) : List Char :=
  collapseSpacesAux false l

/-- Worker for `re.sub(r'\n\s*\n', '\n\n', text)`, fuel-indexed so that the
recursion is structural.  A match starts at a newline whose following maximal
whitespace run contains another newline; the greedy `\s*` makes the match end
at the last newline of that run, and scanning resumes after the match. -/
def paraBreaksF : Nat → List Char → List Char
  | 0, l => l
  | _ + 1, [] => []
  | f + 1, c :: rest =>
    if c = '\n' then
      let ws := rest.takeWhile isPySpace
      let t := (ws.reverse.takeWhile (fun c' => ¬ c' = '\n')).length
      if t < ws.length then
        '\n' :: '\n' :: paraBreaksF f (rest.drop (ws.length - t))
      else c :: paraBreaksF f rest
    else c :: paraBreaksF f rest

/-- `re.sub(r'\n\s*\n', '\n\n', text)`. -/
def paraBreaks (l : List Char) : List Char :=
  paraBreaksF l.length l

/-- `re.sub(r'(?<!\n)\n(?!\n)', ' ', text)`: a newline with no adjacent
newline becomes a space.  `prev` is the previous character of the original
string (`none` at the start). -/
def singleNewlines : Option Char → List Char → List Char
  | _, [] => []
  | prev, c :: rest =>
    (if c = '\n' ∧ prev ≠ some '\n' ∧ rest.head? ≠ some '\n' then ' ' else c) ::
      singleNewlines (some c) rest

/-- `PDFProcessor.normalize_text` (pdf_processor.py lines 121-129): collapse
space runs, normalize paragraph breaks, turn single newlines into spaces,
strip. -/
def normalize_text (l : List Char) : List Char :=
  trim (singleNewlines none (paraBreaks (collapseSpaces l)))

/-- Abstract model of the tiktoken encoding used by `PDFProcessor`
(`tiktoken.get_encoding("cl100k_base")`): an encode/decode pair on token ids. -/
structure Tokenizer where
  encode : List Char → List Nat
  decode : List Nat → List Char

/-- `PDFProcessor.count_tokens` (lines 131-133): length of the encoding. -/
def count_tokens (tc : Tokenizer) (s : List Char) : Nat :=
  (tc.encode s).length

/-- `PDFProcessor._get_overlap_text` (lines 194-201): decode the last
`overlap_tokens` tokens.  For `overlap_tokens = 0` the Python slice
`tokens[-0:]` is the whole list. -/
def get_overlap_text (tc : Tokenizer) (text : List Char) (ov : Nat) : List Char :=
  let tokens := tc.encode text
  if tokens.length ≤ ov then text
  else if ov = 0 then tc.decode tokens
  else tc.decode (tokens.drop (tokens.length - ov))

/-- The lookbehind class of the sentence-splitting regex `(?<=[.!?])\s+`. -/
def isSentEnd (c : Char) : Bool :=
  c = '.' || c = '!' || c = '?'

/-- Worker for `re.split(r'(?<=[.!?])\s+', text)`, fuel-indexed.  `acc` holds
the current sentence reversed; a maximal whitespace run preceded by `.`, `!`
or `?` ends the sentence and is consumed. -/
def splitSentencesF : Nat → List Char → List Char → List (List Char)
  | 0, _, acc => [acc.reverse]
  | _ + 1, [], acc => [acc.reverse]
  | f + 1, c :: rest, acc =>
    if isPySpace c && (match acc with | p :: _ => isSentEnd p | [] => false) then
      acc.reverse :: splitSentencesF f (rest.dropWhile isPySpace) []
    else splitSentencesF f rest (c :: acc)

/-- `re.split(r'(?<=[.!?])\s+', text)` (pdf_processor.py line 147). -/
def splitSentences (l : List Char) : List (List Char) :=
  splitSentencesF l.length l []

/-- One chunk descriptor as built by `create_chunks` (the dict of
pdf_processor.py lines 157-162). -/
structure ChunkData where
  text : List Char
  page : Nat
  order : Nat
  token_count : Nat
deriving DecidableEq, Repr

/-- The per-page sentence loop of `PDFProcessor.create_chunks`
(pdf_processor.py lines 149-189), with the final page flush.  State:
`buf` = `current_chunk`, `tokens` = `current_tokens`, `order` =
`global_order`.  Returns the chunks emitted on this page together with the
updated global order counter.  Note the token count is maintained
incrementally (`current_tokens + sentence_tokens`, lines 156 and 179) and is
recomputed on the joined string only when seeding an overlap (line 169). -/
def processSentences (tc : Tokenizer) (size ov : Nat) (page : Nat) :
    List (List Char) → List Char → Nat → Nat → List ChunkData × Nat
  | [], buf, tokens, order =>
    if trim buf ≠ [] then ([⟨trim buf, page, order, tokens⟩], order + 1)
    else ([], order)
  | s :: rest, buf, tokens, order =>
    let sTok := count_tokens tc s
    if tokens + sTok > size ∧ buf ≠ [] then
      let emitted : ChunkData := ⟨trim buf, page, order, tokens⟩
      if 0 < ov then
        let nbuf := get_overlap_text tc buf ov ++ ' ' :: s
        let res := processSentences tc size ov page rest nbuf
          (count_tokens tc nbuf) (order + 1)
        (emitted :: res.1, res.2)
      else
        let res := processSentences tc size ov page rest s sTok (order + 1)
        (emitted :: res.1, res.2)
    else
      let nbuf := if buf = [] then s else buf ++ ' ' :: s
      processSentences tc size ov page rest nbuf (tokens + sTok) order

/-- `PDFProcessor.create_chunks` (pdf_processor.py lines 135-192): normalize
each page, split it into sentences, run the buffer loop; the global order
counter is threaded across pages. -/
def create_chunks (tc : Tokenizer) (size ov : Nat)
    (pages : List (Nat × List Char)) : List ChunkData :=
  (pages.foldl
    (fun acc p =>
      let res := processSentences tc size ov p.1
        (splitSentences (normalize_text p.2)) [] 0 acc.2
      (acc.1 ++ res.1, res.2))
    (([], 0) : List ChunkData × Nat)).1

/-- Modelled from the spec's words (spec §4.3, for comparison with
`processSentences`): the running token count is recomputed via TokenCounter
on the actual joined string after every mutation, the emit decision compares
`chunkSizeTokens` against `count(buffer + " " + sentence)`
(`count(sentence)` if the buffer is empty), and on emission the next buffer
is seeded from `trailingTokens(emittedText, overlapTokens)` where
`emittedText` is the emitted chunk's trimmed text (spec §4.3, confirmed by
§8: the next chunk begins with the last tokens "of the first chunk's text").
The spec's final-flush "buffer is non-empty" is read as non-blank, matching
the emitted `current_chunk.strip()` text. -/
def processSentencesSpec (tc : Tokenizer) (size ov : Nat) (page : Nat) :
    List (List Char) → List Char → Nat → List ChunkData × Nat
  | [], buf, order =>
    if trim buf ≠ [] then ([⟨trim buf, page, order, count_tokens tc buf⟩], order + 1)
    else ([], order)
  | s :: rest, buf, order =>
    let candidate :=
      if buf = [] then count_tokens tc s else count_tokens tc (buf ++ ' ' :: s)
    if candidate > size ∧ buf ≠ [] then
      let emitted : ChunkData := ⟨trim buf, page, order, count_tokens tc buf⟩
      let nbuf := if 0 < ov then get_overlap_text tc (trim buf) ov ++ ' ' :: s else s
      let res := processSentencesSpec tc size ov page rest nbuf (order + 1)
      (emitted :: res.1, res.2)
    else
      let nbuf := if buf = [] then s else buf ++ ' ' :: s
      processSentencesSpec tc size ov page rest nbuf order

/-- Modelled from the spec's words: `create_chunks` with the always-recomputed
token count and trimmed-text overlap seeding of `processSentencesSpec`. -/
def create_chunks_spec (tc : Tokenizer) (size ov : Nat)
    (pages : List (Nat × List Char)) : List ChunkData :=
  (pages.foldl
    (fun acc p =>
      let res := processSentencesSpec tc size ov p.1
        (splitSentences (normalize_text p.2)) [] acc.2
      (acc.1 ++ res.1, res.2))
    (([], 0) : List ChunkData × Nat)).1

/-- A concrete tokenizer with one token per character.  Not additive over
space-joins: `count (a ++ " " ++ b) = count a + 1 + count b`. -/
def charTok : Tokenizer where
  encode s := s.map Char.toNat
  decode ts := ts.map Char.ofNat

/-- A concrete tokenizer with one token per non-space character.  Its count
is additive over space-joins. -/
def nonSpaceTok : Tokenizer where
  encode s := (s.filter (fun c => ¬ c = ' ')).map Char.toNat
  decode ts := ts.map Char.ofNat

/-- A concrete tokenizer that separates the code's seeding of overlap from
the untrimmed buffer from the spec's seeding from the emitted (trimmed)
chunk text, while staying additive over space-joins: it counts one token per
non-whitespace character, but the token ids are shifted when the encoded
string starts with a space, decoding always prepends a space (as real
subword decoders do for mid-text tokens) and renders shifted ids as 'Z'. -/
def markTok : Tokenizer where
  encode s := (s.filter (fun c => ¬ isPySpace c)).map
    (fun c => c.toNat + if s.head? = some ' ' then 1000 else 0)
  decode ts := ' ' :: ts.map (fun t => if 1000 ≤ t then 'Z' else Char.ofNat t)

/-- Document status values of the `Document` model (`status` column;
app.py sets "pending", "processing", "ready", "error"). -/
inductive DocStatus
  | pending
  | processing
  | ready
  | error
deriving DecidableEq, Repr

/-- A chunk row as seen by the query path: its document's id and status and
its (nullable) embedding.  The ranking claims do not depend on the remaining
columns. -/
structure Candidate where
  docId : Nat
  status : DocStatus
  emb : Option (List ℚ)
deriving DecidableEq, Repr

/-- `np.dot` of two equal-length vectors (app.py line 278). -/
def dotProduct (a b : List ℚ) : ℚ :=
  (List.zipWith (fun x y => x * y) a b).sum

/-- The squared Euclidean norm; `np.linalg.norm v = sqrt (sumSquares v)`. -/
def sumSquares (a : List ℚ) : ℚ :=
  dotProduct a a

/-- `cosine_similarity` (app.py lines 273-285), over exact rationals with an
abstract square root `sq` standing for `np.linalg.norm`'s square root:
return `0` when either norm is `0`, otherwise `dot / (norm1 * norm2)`. -/
def cosine_similarity (sq : ℚ → ℚ) (a b : List ℚ) : ℚ :=
  let norm1 := sq (sumSquares a)
  let norm2 := sq (sumSquares b)
  if norm1 = 0 ∨ norm2 = 0 then 0
  else dotProduct a b / (norm1 * norm2)

/-- The candidate filter of `process_query` (app.py lines 315-327): the
document-id filter is applied only when `request.document_ids` is truthy
(a non-`None`, non-empty list); then chunks are restricted to those with a
non-null embedding belonging to a "ready" document. -/
def eligibleChunks (docFilter : Option (List Nat)) (cands : List Candidate) :
    List Candidate :=
  let afterDoc :=
    match docFilter with
    | some ids => if ids = [] then cands else
        cands.filter (fun c => decide (c.docId ∈ ids))
    | none => cands
  afterDoc.filter (fun c => c.emb.isSome && decide (c.status = DocStatus.ready))

/-- A scored candidate: `idx` is its position in the eligible list (the
insertion order of the `similarities` list of app.py lines 336-344). -/
structure Scored where
  idx : Nat
  cand : Candidate
  score : ℚ
deriving DecidableEq, Repr

/-- Insertion step of a stable descending sort: `x` (earlier in the input
than everything in the list) goes before the first element whose score is
`≤ x.score`. -/
def insertScored (x : Scored) : List Scored → List Scored
  | [] => [x]
  | y :: ys => if y.score ≤ x.score then x :: y :: ys else y :: insertScored x ys

/-- Stable sort by descending score.  Python's `list.sort(key=..., reverse=True)`
(app.py line 347) is a stable descending sort, and a stable sort's output is
uniquely determined by the key order and the input order, so this insertion
sort computes the same list. -/
def sortScored : List Scored → List Scored
  | [] => []
  | x :: xs => insertScored x (sortScored xs)

/-- The ranking step of `process_query` (app.py lines 315-348): filter to the
eligible candidates, score each against the query embedding, sort by
descending similarity (stable) and keep the first `k` (`request.top_k`). -/
def rankChunks (sq : ℚ → ℚ) (q : List ℚ) (docFilter : Option (List Nat))
    (k : Nat) (cands : List Candidate) : List Scored :=
  let elig := eligibleChunks docFilter cands
  let scored := elig.enum.map
    (fun p => ⟨p.1, p.2, cosine_similarity sq q (p.2.emb.getD [])⟩)
  (sortScored scored).take k

/-- The deterministic ranking order: strictly larger score first, exact score
ties broken by smaller insertion index. -/
def rankOrder (a b : Scored) : Prop :=
  b.score < a.score ∨ (a.score = b.score ∧ a.idx < b.idx)

/-- A stand-in square root for concrete witnesses: zero exactly on zero. -/
def sqrtStub (x : ℚ) : ℚ :=
  if x = 0 then 0 else 1

/-- Worker for the batch loop of `_generate_openai_embeddings` (pdf_processor.py
lines 225-247), fuel-indexed: `texts[i:i+batch_size]` for `i` in
`range(0, len(texts), batch_size)`. -/
def chunkBatchesF {α : Type} : Nat → Nat → List α → List (List α)
  | 0, _, _ => []
  | f + 1, b, l =>
    if l.isEmpty || b == 0 then []
    else l.take b :: chunkBatchesF f b (l.drop b)

/-- Split a list into consecutive batches of size `b`. -/
def chunkBatches {α : Type} (b : Nat) (l : List α) : List (List α) :=
  chunkBatchesF l.length b l

/-- The batch loop of `_generate_openai_embeddings` (pdf_processor.py lines
220-250), instrumented with the list of provider calls made: each batch is
passed to the provider once, in order; an `ok` reply is appended to the
accumulator, an exception propagates immediately (the bare `raise` of line
247) and no further call is made. -/
def runBatches {α β : Type} (provider : List α → Except String (List β)) :
    List (List α) → List β → List (List α) →
    Except String (List β) × List (List α)
  | [], acc, calls => (Except.ok acc, calls)
  | b :: rest, acc, calls =>
    match provider b with
    | Except.ok vs => runBatches provider rest (acc ++ vs) (calls ++ [b])
    | Except.error e => (Except.error e, calls ++ [b])

/-- `PDFProcessor._generate_openai_embeddings` (lines 215-250): batch size 100,
one provider call per batch, results concatenated in call order. -/
def generate_openai_embeddings {α β : Type}
    (provider : List α → Except String (List β)) (texts : List α) :
    Except String (List β) × List (List α) :=
  runBatches provider (chunkBatches 100 texts) [] []

/-- `PDFProcessor.generate_embeddings` (lines 203-213), OpenAI path: empty
input short-circuits to an empty result with no provider call. -/
def generate_embeddings {α β : Type}
    (provider : List α → Except String (List β)) (texts : List α) :
    Except String (List β) × List (List α) :=
  if texts.isEmpty then (Except.ok [], []) else generate_openai_embeddings provider texts

/-- Outcome of the `upload_pdf` endpoint as seen by the caller. -/
inductive UploadReply
  | ok
  | httpError (code : Nat)
deriving DecidableEq, Repr

/-- The external events `upload_pdf` depends on: whether the uploaded filename
ends in ".pdf", whether saving the file raises, and the outcome of
`process_pdf` (its chunk list and page count, or an exception).  Persistence
(SQLAlchemy commits) is modelled as reliable, per the spec's external
collaborator contract. -/
structure UploadInput where
  isPdfName : Bool
  saveOk : Bool
  processResult : Except String (List ChunkData × Nat)

/-- `upload_pdf` (app.py lines 138-252) as a step on the document's status
(`none` = no such document).  The status is set to "processing" after
validation (line 164); every completion path then resolves it: generic
exceptions set "error" (lines 239-248), an empty chunk list sets "error"
before raising 400 (lines 181-184), success sets "ready" (line 218).
Early rejections (404 unknown document, 400 non-PDF filename, lines 155-161)
happen before the status is touched. -/
def upload_pdf_step (st : Option DocStatus) (inp : UploadInput) :
    Option DocStatus × UploadReply :=
  match st with
  | none => (none, UploadReply.httpError 404)
  | some s =>
    if ¬ inp.isPdfName then (some s, UploadReply.httpError 400)
    else if ¬ inp.saveOk then (some DocStatus.error, UploadReply.httpError 500)
    else
      match inp.processResult with
      | Except.error _ => (some DocStatus.error, UploadReply.httpError 500)
      | Except.ok (chunks, _) =>
        if chunks = [] then (some DocStatus.error, UploadReply.httpError 400)
        else (some DocStatus.ready, UploadReply.ok)

/-! ### Helper lemmas -/

theorem sumSquares_nonneg (a : List ℚ) : 0 ≤ sumSquares a := by
  unfold sumSquares dotProduct
  induction a with
  | nil => simp
  | cons x xs ih =>
    simp only [List.zipWith_cons_cons, List.sum_cons]
    exact add_nonneg (mul_self_nonneg x) ih

theorem processSentences_orders (tc : Tokenizer) (size ov page : Nat) :
    ∀ (ss : List (List Char)) (buf : List Char) (tokens order : Nat),
      (processSentences tc size ov page ss buf tokens order).1.map ChunkData.order =
        List.range' order (processSentences tc size ov page ss buf tokens order).1.length ∧
      (processSentences tc size ov page ss buf tokens order).2 =
        order + (processSentences tc size ov page ss buf tokens order).1.length := by
  intro ss
  induction ss with
  | nil =>
    intro buf tokens order
    by_cases h : trim buf = []
    · simp [processSentences, h]
    · simp [processSentences, h, List.range'_succ]
  | cons s rest ih =>
    intro buf tokens order
    simp only [processSentences]
    by_cases hcond : tokens + count_tokens tc s > size ∧ buf ≠ []
    · rw [if_pos hcond]
      by_cases hov : 0 < ov
      · rw [if_pos hov]
        rcases ih (get_overlap_text tc buf ov ++ ' ' :: s)
          (count_tokens tc (get_overlap_text tc buf ov ++ ' ' :: s)) (order + 1)
          with ⟨h1, h2⟩
        refine ⟨?_, ?_⟩
        · simp only [List.map_cons, List.length_cons, h1, List.range'_succ]
        · simp only [List.length_cons, h2]
          omega
      · rw [if_neg hov]
        rcases ih s (count_tokens tc s) (order + 1) with ⟨h1, h2⟩
        refine ⟨?_, ?_⟩
        · simp only [List.map_cons, List.length_cons, h1, List.range'_succ]
        · simp only [List.length_cons, h2]
          omega
    · rw [if_neg hcond]
      exact ih _ _ order

theorem create_chunks_fold_orders (tc : Tokenizer) (size ov : Nat) :
    ∀ (pages : List (Nat × List Char)) (acc : List ChunkData × Nat),
      acc.1.map ChunkData.order = List.range' 0 acc.1.length → acc.2 = acc.1.length →
      (pages.foldl
        (fun acc p =>
          let res := processSentences tc size ov p.1
            (splitSentences (normalize_text p.2)) [] 0 acc.2
          (acc.1 ++ res.1, res.2)) acc).1.map ChunkData.order =
        List.range' 0 (pages.foldl
          (fun acc p =>
            let res := processSentences tc size ov p.1
              (splitSentences (normalize_text p.2)) [] 0 acc.2
            (acc.1 ++ res.1, res.2)) acc).1.length ∧
      (pages.foldl
        (fun acc p =>
          let res := processSentences tc size ov p.1
            (splitSentences (normalize_text p.2)) [] 0 acc.2
          (acc.1 ++ res.1, res.2)) acc).2 =
        (pages.foldl
          (fun acc p =>
            let res := processSentences tc size ov p.1
              (splitSentences (normalize_text p.2)) [] 0 acc.2
            (acc.1 ++ res.1, res.2)) acc).1.length := by
  intro pages
  induction pages with
  | nil => intro acc h1 h2; exact ⟨h1, h2⟩
  | cons p rest ih =>
    intro acc h1 h2
    obtain ⟨cs, n⟩ := acc
    simp only at h1 h2
    subst h2
    simp only [List.foldl_cons]
    apply ih
    · rcases processSentences_orders tc size ov p.1
        (splitSentences (normalize_text p.2)) [] 0 cs.length with ⟨g1, _⟩
      simp only [List.map_append, List.length_append, h1, g1]
      have := List.range'_append 0 cs.length
        (processSentences tc size ov p.1
          (splitSentences (normalize_text p.2)) [] 0 cs.length).1.length 1
      simpa [Nat.add_comm] using this
    · rcases processSentences_orders tc size ov p.1
        (splitSentences (normalize_text p.2)) [] 0 cs.length with ⟨_, g2⟩
      simp only [List.length_append, g2]

theorem runBatches_abort {α β : Type} (provider : List α → Except String (List β)) :
    ∀ (bs₁ : List (List α)) (b : List α) (bs₂ : List (List α)) (acc : List β)
      (calls : List (List α)) (e : String),
      (∀ x ∈ bs₁, ∃ vs, provider x = Except.ok vs) →
      provider b = Except.error e →
      runBatches provider (bs₁ ++ b :: bs₂) acc calls =
        (Except.error e, calls ++ (bs₁ ++ [b])) := by
  intro bs₁
  induction bs₁ with
  | nil =>
    intro b bs₂ acc calls e _ hb
    simp [runBatches, hb]
  | cons x bs₁ ih =>
    intro b bs₂ acc calls e hok hb
    obtain ⟨vs, hvs⟩ := hok x (List.mem_cons_self x bs₁)
    simp only [List.cons_append, runBatches, hvs, List.append_eq]
    rw [ih b bs₂ (acc ++ vs) (calls ++ [x]) e
      (fun y hy => hok y (List.mem_cons_of_mem x hy)) hb]
    simp

/-! ### Claim theorems -/

/-- Claim C4: for every input list of pages, the `order` values over all
chunks produced by `create_chunks` form exactly the sequence `0, 1, 2, ...`
(zero-based, dense, strictly increasing by 1 across the whole document); the
counter is never reset at a page boundary. -/
theorem create_chunks_order_dense (tc : Tokenizer) (size ov : Nat)
    (pages : List (Nat × List Char)) :
    (create_chunks tc size ov pages).map ChunkData.order =
      List.range (create_chunks tc size ov pages).length := by
  unfold create_chunks
  rw [List.range_eq_range']
  exact (create_chunks_fold_orders tc size ov pages ([], 0) (by simp) (by simp)).1

/-- Claim C7: if the embedding provider fails on some batch (all earlier
batches succeeding), `generate_embeddings` propagates the error — the result
is the error, not any partial vector list — and the trace of provider calls
is exactly the batches up to and including the failing one, each called once:
no automatic retry, no call after the failure. -/
theorem generate_embeddings_abort_on_batch_failure {α β : Type}
    (provider : List α → Except String (List β)) (texts : List α)
    (bs₁ : List (List α)) (b : List α) (bs₂ : List (List α)) (e : String)
    (hsplit : chunkBatches 100 texts = bs₁ ++ b :: bs₂)
    (hok : ∀ x ∈ bs₁, ∃ vs, provider x = Except.ok vs)
    (hb : provider b = Except.error e) :
    (generate_embeddings provider texts).1 = Except.error e ∧
    (generate_embeddings provider texts).2 = bs₁ ++ [b] := by
  unfold generate_embeddings
  have hne : texts.isEmpty = false := by
    cases texts with
    | nil => simp [chunkBatches, chunkBatchesF] at hsplit
    | cons _ _ => rfl
  rw [hne]
  unfold generate_openai_embeddings
  rw [hsplit, runBatches_abort provider bs₁ b bs₂ [] [] e hok hb]
  simp

/-- Witness for C7 at a concrete failing provider and one batch. -/
theorem generate_embeddings_abort_witness :
    (generate_embeddings
      (fun _ : List Nat => (Except.error "boom" : Except String (List Nat))) [7]).1 =
        Except.error "boom" ∧
    (generate_embeddings
      (fun _ : List Nat => (Except.error "boom" : Except String (List Nat))) [7]).2 =
        [[7]] := by
  have := generate_embeddings_abort_on_batch_failure
    (fun _ : List Nat => (Except.error "boom" : Except String (List Nat)))
    [7] [] [7] [] "boom" (by decide) (by intro x hx; cases hx) rfl
  simpa using this

/-- Claim C8: viewing `upload_pdf` as a step relation on the document's
status, a status of "processing" at return is unreachable: from any state
other than "processing" the endpoint always returns with the status resolved
(unchanged by early rejection, or "ready"/"error" after processing starts),
never "processing". -/
theorem upload_pdf_no_processing_left (st : Option DocStatus) (inp : UploadInput)
    (h : st ≠ some DocStatus.processing) :
    (upload_pdf_step st inp).1 ≠ some DocStatus.processing := by
  cases st with
  | none => simp [upload_pdf_step]
  | some s =>
    by_cases h1 : inp.isPdfName
    · by_cases h2 : inp.saveOk
      · cases hp : inp.processResult with
        | error e => simp [upload_pdf_step, h1, h2, hp]
        | ok pr =>
          obtain ⟨chunks, n⟩ := pr
          by_cases h3 : chunks = []
          · simp [upload_pdf_step, h1, h2, hp, h3]
          · simp [upload_pdf_step, h1, h2, hp, h3]
      · simp [upload_pdf_step, h1, h2]
    · simpa [upload_pdf_step, h1] using h

/-- Witness for C8 at a concrete successful upload from "pending". -/
theorem upload_pdf_no_processing_witness :
    (upload_pdf_step (some DocStatus.pending)
      ⟨true, true, Except.ok ([⟨[' '], 1, 0, 1⟩], 1)⟩).1 ≠
        some DocStatus.processing :=
  upload_pdf_no_processing_left _ _ (by decide)

/-- Claim C10: `cosine_similarity` is total — whenever either vector has zero
norm (equivalently, zero sum of squares, since the square root of a
nonnegative number is zero exactly on zero) it returns exactly `0` without
dividing; otherwise the denominator `norm1 * norm2` is nonzero and the result
is the dot product divided by it.  Modelled over exact rationals with the
square root abstract. -/
theorem cosine_similarity_total (sq : ℚ → ℚ)
    (hsq : ∀ x : ℚ, 0 ≤ x → (sq x = 0 ↔ x = 0)) (a b : List ℚ) :
    ((sumSquares a = 0 ∨ sumSquares b = 0) → cosine_similarity sq a b = 0) ∧
    (sumSquares a ≠ 0 → sumSquares b ≠ 0 →
      sq (sumSquares a) * sq (sumSquares b) ≠ 0 ∧
      cosine_similarity sq a b =
        dotProduct a b / (sq (sumSquares a) * sq (sumSquares b))) := by
  constructor
  · intro h
    unfold cosine_similarity
    rcases h with h | h
    · rw [if_pos (Or.inl ((hsq _ (sumSquares_nonneg a)).mpr h))]
    · rw [if_pos (Or.inr ((hsq _ (sumSquares_nonneg b)).mpr h))]
  · intro ha hb
    have h1 : sq (sumSquares a) ≠ 0 := fun h => ha ((hsq _ (sumSquares_nonneg a)).mp h)
    have h2 : sq (sumSquares b) ≠ 0 := fun h => hb ((hsq _ (sumSquares_nonneg b)).mp h)
    refine ⟨mul_ne_zero h1 h2, ?_⟩
    unfold cosine_similarity
    rw [if_neg (by push_neg; exact ⟨h1, h2⟩)]

/-- Witness for C10: a zero vector gives similarity `0`, and two nonzero
vectors take the division branch. -/
theorem cosine_similarity_total_witness :
    cosine_similarity sqrtStub [1] [0] = 0 ∧
    cosine_similarity sqrtStub [1, 0] [0, 1] =
      dotProduct [1, 0] [0, 1] /
        (sqrtStub (sumSquares [1, 0]) * sqrtStub (sumSquares [0, 1])) := by
  have hsq : ∀ x : ℚ, 0 ≤ x → (sqrtStub x = 0 ↔ x = 0) := by
    intro x _
    rcases eq_or_ne x 0 with h | h
    · simp [sqrtStub, h]
    · simp [sqrtStub, h]
  exact ⟨(cosine_similarity_total sqrtStub hsq [1] [0]).1
      (Or.inr (by norm_num [sumSquares, dotProduct])),
    ((cosine_similarity_total sqrtStub hsq [1, 0] [0, 1]).2
      (by norm_num [sumSquares, dotProduct])
      (by norm_num [sumSquares, dotProduct])).2⟩

/-- Counterexample to claim C1 as stated: with a tokenizer whose counts are
not additive across a space-join (here: one token per character), the code's
incremental sum `current_tokens + sentence_tokens` differs from the spec's
recomputed `count(buffer + " " + sentence)`, and the two procedures emit
different chunks on page "ab. cd." with `chunk_size = 6`: the code keeps one
chunk, the recompute-always procedure splits into two. -/
theorem create_chunks_incremental_count_counterexample :
    create_chunks charTok 6 0 [(1, ("ab. cd.").toList)] ≠
      create_chunks_spec charTok 6 0 [(1, ("ab. cd.").toList)] := by
  decide

/-- Counterexample to claim C2 as stated: with one token per non-space
character, `chunk_size = 3`, `overlap = 2`, page "ab. xy." produces the chunk
"b. xy." whose own token count is 5 > 3 although it is not a single sentence
of the page (it is the overlap seed "b." followed by the sentence "xy."). -/
theorem create_chunks_size_bound_counterexample :
    ¬ (∀ c ∈ create_chunks nonSpaceTok 3 2 [(1, ("ab. xy.").toList)],
        count_tokens nonSpaceTok c.text ≤ 3 ∨
          (c.text ∈ splitSentences (normalize_text (("ab. xy.").toList)) ∧
            3 < count_tokens nonSpaceTok c.text)) := by
  decide

/-- Counterexample to claim C3 as stated: with one token per non-space
character, `chunk_size = 3`, `overlap = 2`, the sentence "wxyz." of page
"ab. wxyz." is oversized (5 tokens > 3), yet no emitted chunk's text equals
it verbatim — it is emitted with the overlap seed "b." prepended. -/
theorem oversized_sentence_verbatim_counterexample :
    ("wxyz.").toList ∈ splitSentences (normalize_text (("ab. wxyz.").toList)) ∧
    3 < count_tokens nonSpaceTok (("wxyz.").toList) ∧
    ∀ c ∈ create_chunks nonSpaceTok 3 2 [(1, ("ab. wxyz.").toList)],
      c.text ≠ ("wxyz.").toList := by
  decide

/-- Counterexample to claim C6 as stated: Python's `if request.document_ids:`
treats a supplied but empty document-id filter as absent, so with filter
`some []` the ranking still returns a chunk, which then cannot belong to a
document of the (empty) filter set. -/
theorem rank_empty_filter_counterexample :
    ¬ (∀ r ∈ rankChunks sqrtStub [1] (some []) 1
        [⟨5, DocStatus.ready, some [1]⟩],
        r.cand.docId ∈ ([] : List Nat)) := by
  decide

/-- Counterexample to claim C9 as stated: `normalize_text` is not idempotent.
On "a \n b" the single newline becomes a space after the space-collapsing
pass has already run, leaving "a   b"; a second application collapses it to
"a b". -/
theorem normalize_text_not_idempotent :
    normalize_text (normalize_text (("a \n b").toList)) ≠
      normalize_text (("a \n b").toList) := by
  decide

theorem mem_insertScored (x a : Scored) :
    ∀ l, a ∈ insertScored x l ↔ a = x ∨ a ∈ l := by
  intro l
  induction l with
  | nil => simp [insertScored]
  | cons y ys ih =>
    by_cases h : y.score ≤ x.score
    · simp [insertScored, h]
    · simp only [insertScored, if_neg h, List.mem_cons, ih]
      tauto

theorem pairwise_insertScored (x : Scored) :
    ∀ l, List.Pairwise rankOrder l →
      (∀ y ∈ l, x.score = y.score → x.idx < y.idx) →
      List.Pairwise rankOrder (insertScored x l) := by
  intro l
  induction l with
  | nil => intro _ _; simp [insertScored, List.pairwise_cons]
  | cons y ys ih =>
    intro hp hx
    rw [List.pairwise_cons] at hp
    obtain ⟨hy, hys⟩ := hp
    by_cases h : y.score ≤ x.score
    · rw [insertScored, if_pos h, List.pairwise_cons]
      refine ⟨?_, List.pairwise_cons.mpr ⟨hy, hys⟩⟩
      intro z hz
      rcases List.mem_cons.mp hz with rfl | hz'
      · rcases lt_or_eq_of_le h with hlt | heq
        · exact Or.inl hlt
        · exact Or.inr ⟨heq.symm, hx z (List.mem_cons_self z ys) heq.symm⟩
      · rcases hy z hz' with hlt | ⟨heq, _⟩
        · exact Or.inl (lt_of_lt_of_le hlt h)
        · rcases lt_or_eq_of_le h with hlt2 | heq2
          · exact Or.inl (heq ▸ hlt2)
          · exact Or.inr ⟨heq2.symm.trans heq,
              hx z (List.mem_cons_of_mem y hz') (heq2.symm.trans heq)⟩
    · rw [insertScored, if_neg h, List.pairwise_cons]
      push_neg at h
      refine ⟨?_, ih hys (fun z hz => hx z (List.mem_cons_of_mem y hz))⟩
      intro z hz
      rcases (mem_insertScored x z ys).mp hz with rfl | hz'
      · exact Or.inl h
      · exact hy z hz'

theorem mem_sortScored (a : Scored) : ∀ l, a ∈ sortScored l ↔ a ∈ l := by
  intro l
  induction l with
  | nil => simp [sortScored]
  | cons x xs ih => simp [sortScored, mem_insertScored, ih]

theorem pairwise_sortScored :
    ∀ l, List.Pairwise (fun a b : Scored => a.idx < b.idx) l →
      List.Pairwise rankOrder (sortScored l) := by
  intro l
  induction l with
  | nil => intro _; simp [sortScored]
  | cons x xs ih =>
    intro h
    rw [List.pairwise_cons] at h
    exact pairwise_insertScored x (sortScored xs) (ih h.2)
      (fun y hy _ => h.1 y ((mem_sortScored y xs).mp hy))

theorem mem_enumFrom_fst_le {α : Type} :
    ∀ (l : List α) (n : Nat) (p : Nat × α), p ∈ List.enumFrom n l → n ≤ p.1 := by
  intro l
  induction l with
  | nil => intro n p h; cases h
  | cons x xs ih =>
    intro n p h
    rcases List.mem_cons.mp h with rfl | h'
    · exact le_refl n
    · exact le_of_lt (lt_of_lt_of_le (Nat.lt_succ_self n) (ih (n + 1) p h'))

theorem pairwise_fst_enumFrom {α : Type} :
    ∀ (l : List α) (n : Nat),
      List.Pairwise (fun p q : Nat × α => p.1 < q.1) (List.enumFrom n l) := by
  intro l
  induction l with
  | nil => intro n; simp
  | cons x xs ih =>
    intro n
    rw [List.enumFrom, List.pairwise_cons]
    exact ⟨fun q hq => lt_of_lt_of_le (Nat.lt_succ_self n)
      (mem_enumFrom_fst_le xs (n + 1) q hq), ih (n + 1)⟩

theorem snd_mem_enumFrom {α : Type} :
    ∀ (l : List α) (n : Nat) (p : Nat × α), p ∈ List.enumFrom n l → p.2 ∈ l := by
  intro l
  induction l with
  | nil => intro n p h; cases h
  | cons x xs ih =>
    intro n p h
    rcases List.mem_cons.mp h with rfl | h'
    · exact List.mem_cons_self x xs
    · exact List.mem_cons_of_mem x (ih (n + 1) p h')

/-- Claim C5: the ranking of `process_query` is deterministic — it is a pure
function of the query vector, the candidate list and `k` (so identical inputs
give the identical output list), and its output is ordered pairwise by
strictly descending score with exact ties broken by ascending insertion index
in the candidate list.  Since the indices are distinct, this pairwise order
determines the output order uniquely, which is what Python's stable
`sort(reverse=True)` guarantees. -/
theorem rankChunks_deterministic_order (sq : ℚ → ℚ) (q : List ℚ)
    (docFilter : Option (List Nat)) (k : Nat) (cands : List Candidate) :
    List.Pairwise rankOrder (rankChunks sq q docFilter k cands) := by
  unfold rankChunks
  apply List.Pairwise.sublist (List.take_sublist _ _)
  apply pairwise_sortScored
  rw [List.pairwise_map]
  exact pairwise_fst_enumFrom (eligibleChunks docFilter cands) 0

/-- Claim C6 (amended): the ranking step of `process_query` returns at most
`k` results, and every returned chunk has a non-null embedding and belongs to
a document whose status is "ready"; when a NON-EMPTY document-id filter is
supplied, it belongs to a document of that filter set.  (A supplied but empty
filter is treated as absent by `if request.document_ids:`.) -/
theorem rankChunks_filter_sound (sq : ℚ → ℚ) (q : List ℚ)
    (docFilter : Option (List Nat)) (k : Nat) (cands : List Candidate) :
    (rankChunks sq q docFilter k cands).length ≤ k ∧
    ∀ r ∈ rankChunks sq q docFilter k cands,
      r.cand.emb.isSome = true ∧ r.cand.status = DocStatus.ready ∧
      ∀ ids, docFilter = some ids → ids ≠ [] → r.cand.docId ∈ ids := by
  constructor
  · unfold rankChunks
    simp only [List.length_take]
    exact min_le_left _ _
  · intro r hr
    have hr1 : r ∈ sortScored ((List.enumFrom 0 (eligibleChunks docFilter cands)).map
        (fun p => (⟨p.1, p.2, cosine_similarity sq q (p.2.emb.getD [])⟩ : Scored))) := by
      have := (List.take_sublist k _).subset hr
      exact this
    rw [mem_sortScored] at hr1
    obtain ⟨p, hp, rfl⟩ := List.mem_map.mp hr1
    have hpe : p.2 ∈ eligibleChunks docFilter cands :=
      snd_mem_enumFrom (eligibleChunks docFilter cands) 0 p hp
    unfold eligibleChunks at hpe
    rw [List.mem_filter] at hpe
    obtain ⟨hdoc, hpred⟩ := hpe
    simp only [Bool.and_eq_true, decide_eq_true_eq] at hpred
    refine ⟨hpred.1, hpred.2, ?_⟩
    intro ids hids hne
    subst hids
    have hdoc' : p.2 ∈ (if ids = [] then cands
        else cands.filter (fun c => decide (c.docId ∈ ids))) := hdoc
    rw [if_neg hne] at hdoc'
    rw [List.mem_filter] at hdoc'
    exact of_decide_eq_true hdoc'.2

/-- Witness for C6 (amended) at a concrete non-empty filter. -/
theorem rankChunks_filter_sound_witness :
    (rankChunks sqrtStub [1] (some [3]) 2
      [⟨3, DocStatus.ready, some [1]⟩, ⟨4, DocStatus.ready, some [1]⟩]).length ≤ 2 ∧
    ∀ r ∈ rankChunks sqrtStub [1] (some [3]) 2
      [⟨3, DocStatus.ready, some [1]⟩, ⟨4, DocStatus.ready, some [1]⟩],
      r.cand.docId ∈ [3] :=
  ⟨(rankChunks_filter_sound sqrtStub [1] (some [3]) 2
      [⟨3, DocStatus.ready, some [1]⟩, ⟨4, DocStatus.ready, some [1]⟩]).1,
   fun r hr =>
     ((rankChunks_filter_sound sqrtStub [1] (some [3]) 2
       [⟨3, DocStatus.ready, some [1]⟩, ⟨4, DocStatus.ready, some [1]⟩]).2 r hr).2.2
       [3] rfl (by decide)⟩

/-- Core of claim C1 (amended): with `overlap = 0` and a token counting that
is additive across space-joins and maps the empty string to no tokens, the
code's incremental `current_tokens + sentence_tokens` bookkeeping coincides
with the spec's recompute-on-the-joined-string procedure.  (With
`overlap > 0` the two procedures additionally differ in where the overlap
seed is taken from — untrimmed buffer versus emitted trimmed text — see
`create_chunks_spec_trim_seed_separates`.) -/
theorem processSentences_additive_eq (tc : Tokenizer) (size page : Nat)
    (hnil : tc.encode [] = [])
    (hadd : ∀ a s : List Char, a ≠ [] →
      count_tokens tc (a ++ ' ' :: s) = count_tokens tc a + count_tokens tc s) :
    ∀ (ss : List (List Char)) (buf : List Char) (order : Nat),
      processSentences tc size 0 page ss buf (count_tokens tc buf) order =
        processSentencesSpec tc size 0 page ss buf order := by
  have h0 : count_tokens tc [] = 0 := by simp [count_tokens, hnil]
  intro ss
  induction ss with
  | nil => intro buf order; simp [processSentences, processSentencesSpec]
  | cons s rest ih =>
    intro buf order
    by_cases hb : buf = []
    · subst hb
      simp only [processSentences, processSentencesSpec, h0, ne_eq,
        not_true_eq_false, and_false, if_false, Nat.zero_add, if_pos rfl]
      simpa using ih s order
    · have hcand : count_tokens tc (buf ++ ' ' :: s) =
          count_tokens tc buf + count_tokens tc s := hadd buf s hb
      simp only [processSentences, processSentencesSpec, if_neg hb, hcand]
      by_cases hgt : count_tokens tc buf + count_tokens tc s > size
      · rw [if_pos ⟨hgt, hb⟩, if_neg (lt_irrefl 0), if_pos ⟨hgt, hb⟩,
          if_neg (lt_irrefl 0)]
        rw [ih s (order + 1)]
      · rw [if_neg (fun h => hgt h.1), if_neg (fun h => hgt h.1)]
        rw [← hcand]
        exact ih (buf ++ ' ' :: s) order

/-- Claim C1 (amended): `create_chunks` maintains the running token count
incrementally — the emit decision compares `chunkSizeTokens` against
`current_tokens + count(sentence)` and appends sum the counts of the parts,
with a recount of the joined string only when seeding an overlap — and it
seeds that overlap from the untrimmed buffer where the spec takes the
trailing tokens of the emitted (trimmed) chunk text.  With `overlap = 0` it
produces exactly the chunks of the spec's recompute-after-every-mutation
procedure whenever token counting is additive across space-joins and the
empty string encodes to no tokens.  For non-additive tokenizers the two
differ already at `overlap = 0` (see the counterexample), and for
`overlap > 0` even additive tokenizers can separate them through the
untrimmed seeding (see `create_chunks_spec_trim_seed_separates`). -/
theorem create_chunks_additive_agrees_with_spec (tc : Tokenizer) (size : Nat)
    (hnil : tc.encode [] = [])
    (hadd : ∀ a s : List Char, a ≠ [] →
      count_tokens tc (a ++ ' ' :: s) = count_tokens tc a + count_tokens tc s)
    (pages : List (Nat × List Char)) :
    create_chunks tc size 0 pages = create_chunks_spec tc size 0 pages := by
  have h0 : count_tokens tc [] = 0 := by simp [count_tokens, hnil]
  unfold create_chunks create_chunks_spec
  suffices h : ∀ (acc : List ChunkData × Nat),
      pages.foldl (fun acc p =>
        let res := processSentences tc size 0 p.1
          (splitSentences (normalize_text p.2)) [] 0 acc.2
        (acc.1 ++ res.1, res.2)) acc =
      pages.foldl (fun acc p =>
        let res := processSentencesSpec tc size 0 p.1
          (splitSentences (normalize_text p.2)) [] acc.2
        (acc.1 ++ res.1, res.2)) acc by
    rw [h ([], 0)]
  intro acc
  induction pages generalizing acc with
  | nil => rfl
  | cons p rest ih =>
    simp only [List.foldl_cons]
    have hps : processSentences tc size 0 p.1
        (splitSentences (normalize_text p.2)) [] 0 acc.2 =
        processSentencesSpec tc size 0 p.1
          (splitSentences (normalize_text p.2)) [] acc.2 := by
      have := processSentences_additive_eq tc size p.1 hnil hadd
        (splitSentences (normalize_text p.2)) [] acc.2
      rwa [h0] at this
    rw [hps]
    exact ih _

/-- The one-token-per-non-space-character tokenizer encodes "" to no tokens. -/
theorem nonSpaceTok_encode_nil : nonSpaceTok.encode [] = [] := rfl

/-- The one-token-per-non-space-character tokenizer is additive across
space-joins. -/
theorem nonSpaceTok_additive : ∀ a s : List Char, a ≠ [] →
    count_tokens nonSpaceTok (a ++ ' ' :: s) =
      count_tokens nonSpaceTok a + count_tokens nonSpaceTok s := by
  intro a s _
  simp [count_tokens, nonSpaceTok, List.filter_append]

/-- Witness for C1 (amended) at a concrete additive tokenizer and page with
`overlap = 0`. -/
theorem create_chunks_additive_agrees_witness :
    create_chunks nonSpaceTok 6 0 [(1, ("ab. cd. ef.").toList)] =
      create_chunks_spec nonSpaceTok 6 0 [(1, ("ab. cd. ef.").toList)] :=
  create_chunks_additive_agrees_with_spec nonSpaceTok 6
    nonSpaceTok_encode_nil nonSpaceTok_additive [(1, ("ab. cd. ef.").toList)]

/-- The marked tokenizer is additive across space-joins: its count is the
number of non-whitespace characters, independent of the id shift. -/
theorem markTok_additive : ∀ a s : List Char, a ≠ [] →
    count_tokens markTok (a ++ ' ' :: s) =
      count_tokens markTok a + count_tokens markTok s := by
  intro a s _
  simp [count_tokens, markTok, List.filter_append, isPySpace]

/-- The restriction of the amended claim C1 to `overlap = 0` is necessary:
for an additive tokenizer (empty string to no tokens, counts additive across
space-joins) whose encoding also depends on leading whitespace, the code —
seeding overlap from the untrimmed buffer, pdf_processor.py line 167 — and
the spec's procedure — seeding from the emitted trimmed chunk text, spec
§4.3/§8 — emit different chunks at `overlap = 1`: on page "a. b. c." the
third chunk is "Z c." for the code but ". c." for the spec. -/
theorem create_chunks_spec_trim_seed_separates :
    markTok.encode [] = [] ∧
    (∀ a s : List Char, a ≠ [] →
      count_tokens markTok (a ++ ' ' :: s) =
        count_tokens markTok a + count_tokens markTok s) ∧
    create_chunks markTok 2 1 [(1, ("a. b. c.").toList)] ≠
      create_chunks_spec markTok 2 1 [(1, ("a. b. c.").toList)] :=
  ⟨rfl, markTok_additive, by decide⟩

theorem processSentences_oversized_flush (tc : Tokenizer) (size page : Nat)
    (s : List Char) (hts : trim s = s) (hne : s ≠ []) :
    ∀ (rest : List (List Char)) (tokens order : Nat), size < tokens →
      ∃ c ∈ (processSentences tc size 0 page rest s tokens order).1, c.text = s := by
  intro rest
  induction rest with
  | nil =>
    intro tokens order _
    refine ⟨⟨trim s, page, order, tokens⟩, ?_, by simp [hts]⟩
    simp [processSentences, hts, hne]
  | cons s' rest' _ =>
    intro tokens order hbig
    have hcond : tokens + count_tokens tc s' > size ∧ s ≠ [] :=
      ⟨lt_of_lt_of_le hbig (Nat.le_add_right tokens _), hne⟩
    refine ⟨⟨trim s, page, order, tokens⟩, ?_, by simp [hts]⟩
    simp only [processSentences, if_pos hcond, if_neg (lt_irrefl 0)]
    exact List.mem_cons_self _ _

theorem processSentences_oversized_mem (tc : Tokenizer) (size page : Nat)
    (s : List Char) (hts : trim s = s) (hne : s ≠ [])
    (hbig : size < count_tokens tc s) :
    ∀ (ss : List (List Char)), s ∈ ss → ∀ (buf : List Char) (tokens order : Nat),
      ∃ c ∈ (processSentences tc size 0 page ss buf tokens order).1, c.text = s := by
  intro ss
  induction ss with
  | nil => intro h; cases h
  | cons s0 rest ih =>
    intro hmem buf tokens order
    rcases List.mem_cons.mp hmem with rfl | hmem'
    · by_cases hcond : tokens + count_tokens tc s > size ∧ buf ≠ []
      · simp only [processSentences, if_pos hcond, if_neg (lt_irrefl 0)]
        obtain ⟨c, hc, hct⟩ := processSentences_oversized_flush tc size page s hts hne
          rest (count_tokens tc s) (order + 1) hbig
        exact ⟨c, List.mem_cons_of_mem _ hc, hct⟩
      · have hbuf : buf = [] := by
          by_contra hb
          exact hcond ⟨lt_of_lt_of_le hbig (Nat.le_add_left _ _), hb⟩
        subst hbuf
        simp only [processSentences, if_neg hcond, if_pos rfl]
        exact processSentences_oversized_flush tc size page s hts hne
          rest (tokens + count_tokens tc s) order
          (lt_of_lt_of_le hbig (Nat.le_add_left _ _))
    · by_cases hcond : tokens + count_tokens tc s0 > size ∧ buf ≠ []
      · simp only [processSentences, if_pos hcond, if_neg (lt_irrefl 0)]
        obtain ⟨c, hc, hct⟩ := ih hmem' s0 (count_tokens tc s0) (order + 1)
        exact ⟨c, List.mem_cons_of_mem _ hc, hct⟩
      · simp only [processSentences, if_neg hcond]
        exact ih hmem' _ _ order

theorem create_chunks_fold_mem_mono (tc : Tokenizer) (size ov : Nat) :
    ∀ (pages : List (Nat × List Char)) (acc : List ChunkData × Nat) (c : ChunkData),
      c ∈ acc.1 →
      c ∈ (pages.foldl
        (fun acc p =>
          let res := processSentences tc size ov p.1
            (splitSentences (normalize_text p.2)) [] 0 acc.2
          (acc.1 ++ res.1, res.2)) acc).1 := by
  intro pages
  induction pages with
  | nil => intro acc c hc; exact hc
  | cons q rest ih =>
    intro acc c hc
    simp only [List.foldl_cons]
    exact ih _ c (List.mem_append_left _ hc)

/-- Claim C3 (amended): with `overlap = 0`, a sentence whose own token count
exceeds `chunkSizeTokens` is never split: some chunk's text is exactly that
sentence, verbatim.  (With `overlap > 0` and a non-empty buffer the chunk
containing it instead starts with the overlap seed — see the
counterexample.) -/
theorem oversized_sentence_own_chunk_no_overlap (tc : Tokenizer) (size : Nat)
    (pages : List (Nat × List Char)) (p : Nat × List Char) (s : List Char)
    (hp : p ∈ pages) (hs : s ∈ splitSentences (normalize_text p.2))
    (hts : trim s = s) (hne : s ≠ []) (hbig : size < count_tokens tc s) :
    ∃ c ∈ create_chunks tc size 0 pages, c.text = s := by
  unfold create_chunks
  suffices h : ∀ (pages : List (Nat × List Char)) (acc : List ChunkData × Nat),
      p ∈ pages →
      ∃ c ∈ (pages.foldl
        (fun acc p =>
          let res := processSentences tc size 0 p.1
            (splitSentences (normalize_text p.2)) [] 0 acc.2
          (acc.1 ++ res.1, res.2)) acc).1, c.text = s by
    exact h pages ([], 0) hp
  intro pages'
  induction pages' with
  | nil => intro acc h; cases h
  | cons q rest ih =>
    intro acc hq
    rcases List.mem_cons.mp hq with rfl | hq'
    · simp only [List.foldl_cons]
      obtain ⟨c, hc, hct⟩ := processSentences_oversized_mem tc size p.1 s hts hne hbig
        (splitSentences (normalize_text p.2)) hs [] 0 acc.2
      exact ⟨c, create_chunks_fold_mem_mono tc size 0 rest _ c
        (List.mem_append_right _ hc), hct⟩
    · simp only [List.foldl_cons]
      exact ih _ hq'

/-- Witness for C3 (amended): the oversized sentence "wxyz." of page
"wxyz. ab." is its own verbatim chunk when overlap is 0. -/
theorem oversized_sentence_own_chunk_witness :
    ∃ c ∈ create_chunks nonSpaceTok 3 0 [(1, ("wxyz. ab.").toList)],
      c.text = ("wxyz.").toList :=
  oversized_sentence_own_chunk_no_overlap nonSpaceTok 3
    [(1, ("wxyz. ab.").toList)] (1, ("wxyz. ab.").toList) (("wxyz.").toList)
    (by decide) (by decide) (by decide) (by decide) (by decide)

theorem trim_sublist (l : List Char) : (trim l).Sublist l := by
  unfold trim
  refine List.Sublist.trans ?_ (List.dropWhile_sublist (l := l) isPySpace)
  have h : ((l.dropWhile isPySpace).reverse.dropWhile isPySpace).Sublist
      (l.dropWhile isPySpace).reverse := List.dropWhile_sublist _
  simpa using h.reverse

theorem processSentences_size_bound (tc : Tokenizer) (size ov page : Nat)
    (hnil : tc.encode [] = [])
    (hadd : ∀ a s : List Char, a ≠ [] →
      count_tokens tc (a ++ ' ' :: s) = count_tokens tc a + count_tokens tc s)
    (htrim : ∀ s : List Char, count_tokens tc (trim s) ≤ count_tokens tc s)
    (S : List (List Char)) :
    ∀ (ss : List (List Char)) (buf : List Char) (order : Nat),
      (∀ s ∈ ss, s ∈ S) →
      (count_tokens tc buf ≤ size ∨
        ∃ s ∈ S, buf = s ∨
          (0 < ov ∧ ∃ b, buf = get_overlap_text tc b ov ++ ' ' :: s)) →
      ∀ c ∈ (processSentences tc size ov page ss buf (count_tokens tc buf) order).1,
        count_tokens tc c.text ≤ size ∨
        ∃ s ∈ S, c.text = trim s ∨
          (0 < ov ∧ ∃ b, c.text = trim (get_overlap_text tc b ov ++ ' ' :: s)) := by
  have h0 : count_tokens tc [] = 0 := by simp [count_tokens, hnil]
  have emitCase : ∀ (buf : List Char),
      (count_tokens tc buf ≤ size ∨
        ∃ s ∈ S, buf = s ∨
          (0 < ov ∧ ∃ b, buf = get_overlap_text tc b ov ++ ' ' :: s)) →
      count_tokens tc (trim buf) ≤ size ∨
        ∃ s ∈ S, trim buf = trim s ∨
          (0 < ov ∧ ∃ b, trim buf = trim (get_overlap_text tc b ov ++ ' ' :: s)) := by
    intro buf hbuf
    rcases hbuf with hle | ⟨s, hsS, hform⟩
    · exact Or.inl (le_trans (htrim buf) hle)
    · rcases hform with heq | ⟨hov, b, heq⟩
      · exact Or.inr ⟨s, hsS, Or.inl (by rw [heq])⟩
      · exact Or.inr ⟨s, hsS, Or.inr ⟨hov, b, by rw [heq]⟩⟩
  intro ss
  induction ss with
  | nil =>
    intro buf order _ hbuf c hc
    by_cases ht : trim buf = []
    · simp [processSentences, ht] at hc
    · simp only [processSentences, if_pos (by simpa using ht)] at hc
      rcases List.mem_singleton.mp hc with rfl
      exact emitCase buf hbuf
  | cons s0 rest ih =>
    intro buf order hss hbuf c hc
    have hs0S : s0 ∈ S := hss s0 (List.mem_cons_self _ _)
    have hrest : ∀ s ∈ rest, s ∈ S := fun s hs => hss s (List.mem_cons_of_mem _ hs)
    by_cases hcond : count_tokens tc buf + count_tokens tc s0 > size ∧ buf ≠ []
    · simp only [processSentences, if_pos hcond] at hc
      by_cases hov : 0 < ov
      · rw [if_pos hov] at hc
        rcases List.mem_cons.mp hc with rfl | hc'
        · exact emitCase buf hbuf
        · exact ih (get_overlap_text tc buf ov ++ ' ' :: s0) (order + 1) hrest
            (Or.inr ⟨s0, hs0S, Or.inr ⟨hov, buf, rfl⟩⟩) c hc'
      · rw [if_neg hov] at hc
        rcases List.mem_cons.mp hc with rfl | hc'
        · exact emitCase buf hbuf
        · exact ih s0 (order + 1) hrest (Or.inr ⟨s0, hs0S, Or.inl rfl⟩) c hc'
    · simp only [processSentences, if_neg hcond] at hc
      by_cases hb : buf = []
      · subst hb
        rw [if_pos rfl, h0, Nat.zero_add] at hc
        exact ih s0 order hrest (Or.inr ⟨s0, hs0S, Or.inl rfl⟩) c hc
      · rw [if_neg hb, ← hadd buf s0 hb] at hc
        have hsum : count_tokens tc buf + count_tokens tc s0 ≤ size := by
          by_contra hgt
          exact hcond ⟨Nat.lt_of_not_le hgt, hb⟩
        have hle : count_tokens tc (buf ++ ' ' :: s0) ≤ size := by
          rw [hadd buf s0 hb]
          exact hsum
        exact ih (buf ++ ' ' :: s0) order hrest (Or.inl hle) c hc

/-- Claim C2 (amended): for a token counting that is additive across
space-joins, encodes "" to no tokens, and does not increase under stripping,
every chunk emitted by `create_chunks` has token count at most
`chunkSizeTokens`, except chunks whose text is (the stripped form of) a
single sentence of some page, or an overlap seed followed by a single
sentence — those are the only chunks that can exceed the limit. -/
theorem create_chunks_size_bound_amended (tc : Tokenizer) (size ov : Nat)
    (hnil : tc.encode [] = [])
    (hadd : ∀ a s : List Char, a ≠ [] →
      count_tokens tc (a ++ ' ' :: s) = count_tokens tc a + count_tokens tc s)
    (htrim : ∀ s : List Char, count_tokens tc (trim s) ≤ count_tokens tc s)
    (pages : List (Nat × List Char)) :
    ∀ c ∈ create_chunks tc size ov pages,
      count_tokens tc c.text ≤ size ∨
      (size < count_tokens tc c.text ∧
        ∃ p ∈ pages, ∃ s ∈ splitSentences (normalize_text p.2),
          c.text = trim s ∨
            (0 < ov ∧ ∃ b, c.text = trim (get_overlap_text tc b ov ++ ' ' :: s))) := by
  have h0 : count_tokens tc [] = 0 := by simp [count_tokens, hnil]
  suffices h : ∀ (pages' : List (Nat × List Char)) (acc : List ChunkData × Nat),
      (∀ q ∈ pages', q ∈ pages) →
      (∀ c ∈ acc.1, count_tokens tc c.text ≤ size ∨
        ∃ p ∈ pages, ∃ s ∈ splitSentences (normalize_text p.2),
          c.text = trim s ∨
            (0 < ov ∧ ∃ b, c.text = trim (get_overlap_text tc b ov ++ ' ' :: s))) →
      ∀ c ∈ (pages'.foldl
        (fun acc p =>
          let res := processSentences tc size ov p.1
            (splitSentences (normalize_text p.2)) [] 0 acc.2
          (acc.1 ++ res.1, res.2)) acc).1,
        count_tokens tc c.text ≤ size ∨
        ∃ p ∈ pages, ∃ s ∈ splitSentences (normalize_text p.2),
          c.text = trim s ∨
            (0 < ov ∧ ∃ b, c.text = trim (get_overlap_text tc b ov ++ ' ' :: s)) by
    intro c hc
    rcases h pages ([], 0) (fun q hq => hq) (by simp) c hc with hle | hex
    · exact Or.inl hle
    · by_cases hgt : count_tokens tc c.text ≤ size
      · exact Or.inl hgt
      · exact Or.inr ⟨Nat.lt_of_not_le hgt, hex⟩
  intro pages'
  induction pages' with
  | nil => intro acc _ hacc c hc; exact hacc c hc
  | cons q rest ih =>
    intro acc hq hacc
    simp only [List.foldl_cons]
    apply ih _ (fun r hr => hq r (List.mem_cons_of_mem _ hr))
    intro c hc
    rcases List.mem_append.mp hc with hcl | hcr
    · exact hacc c hcl
    · have hshape : processSentences tc size ov q.1
          (splitSentences (normalize_text q.2)) []
          (count_tokens tc []) acc.2 =
          processSentences tc size ov q.1
            (splitSentences (normalize_text q.2)) [] 0 acc.2 := by
        rw [h0]
      have hper := processSentences_size_bound tc size ov q.1 hnil hadd htrim
        (splitSentences (normalize_text q.2))
        (splitSentences (normalize_text q.2)) [] acc.2
        (fun s hs => hs)
        (Or.inl (by rw [h0]; exact Nat.zero_le _))
        c (by rw [hshape]; exact hcr)
      rcases hper with hle | ⟨s, hsS, hform⟩
      · exact Or.inl hle
      · exact Or.inr ⟨q, hq q (List.mem_cons_self _ _), s, hsS, hform⟩

/-- The one-token-per-non-space-character count does not increase under
stripping. -/
theorem nonSpaceTok_trim_le : ∀ s : List Char,
    count_tokens nonSpaceTok (trim s) ≤ count_tokens nonSpaceTok s := by
  intro s
  simp only [count_tokens, nonSpaceTok, List.length_map]
  exact ((trim_sublist s).filter _).length_le

/-- Witness for C2 (amended) at a concrete additive tokenizer, chunk size 3,
overlap 2, page "ab. xy.", instantiated at the over-limit chunk "b. xy." that
the page produces. -/
theorem create_chunks_size_bound_amended_witness :
    count_tokens nonSpaceTok (("b. xy.").toList) ≤ 3 ∨
    (3 < count_tokens nonSpaceTok (("b. xy.").toList) ∧
      ∃ p ∈ [(1, ("ab. xy.").toList)], ∃ s ∈ splitSentences (normalize_text p.2),
        ("b. xy.").toList = trim s ∨
          (0 < 2 ∧ ∃ b, ("b. xy.").toList =
            trim (get_overlap_text nonSpaceTok b 2 ++ ' ' :: s))) :=
  create_chunks_size_bound_amended nonSpaceTok 3 2
    nonSpaceTok_encode_nil nonSpaceTok_additive nonSpaceTok_trim_le
    [(1, ("ab. xy.").toList)] ⟨("b. xy.").toList, 1, 1, 5⟩ (by decide)

theorem paraBreaksF_no_newline : ∀ (f : Nat) (l : List Char), '\n' ∉ l →
    paraBreaksF f l = l := by
  intro f
  induction f with
  | zero => intro l _; rfl
  | succ f ih =>
    intro l hl
    cases l with
    | nil => rfl
    | cons c rest =>
      have hc : ¬ c = '\n' := fun h => hl (h ▸ List.mem_cons_self c rest)
      rw [paraBreaksF, if_neg hc]
      rw [ih rest (fun h => hl (List.mem_cons_of_mem c h))]

theorem singleNewlines_no_newline : ∀ (l : List Char) (prev : Option Char),
    '\n' ∉ l → singleNewlines prev l = l := by
  intro l
  induction l with
  | nil => intro prev _; rfl
  | cons c rest ih =>
    intro prev hl
    have hc : ¬ c = '\n' := fun h => hl (h ▸ List.mem_cons_self c rest)
    rw [singleNewlines, if_neg (fun h => hc h.1)]
    rw [ih (some c) (fun h => hl (List.mem_cons_of_mem c h))]

theorem mem_collapseSpacesAux : ∀ (l : List Char) (b : Bool) (x : Char),
    x ∈ collapseSpacesAux b l → x ∈ l ∨ x = ' ' := by
  intro l
  induction l with
  | nil => intro b x h; cases h
  | cons c rest ih =>
    intro b x h
    by_cases hc : c = ' '
    · subst hc
      cases b with
      | true =>
        rw [collapseSpacesAux, if_pos rfl] at h
        rcases ih true x h with h' | h'
        · exact Or.inl (List.mem_cons_of_mem _ h')
        · exact Or.inr h'
      | false =>
        rw [collapseSpacesAux, if_pos rfl] at h
        rcases List.mem_cons.mp h with rfl | h'
        · exact Or.inr rfl
        · rcases ih true x h' with h'' | h''
          · exact Or.inl (List.mem_cons_of_mem _ h'')
          · exact Or.inr h''
    · rw [collapseSpacesAux, if_neg hc] at h
      rcases List.mem_cons.mp h with rfl | h'
      · exact Or.inl (List.mem_cons_self _ _)
      · rcases ih false x h' with h'' | h''
        · exact Or.inl (List.mem_cons_of_mem _ h'')
        · exact Or.inr h''

theorem collapseSpacesAux_chain : ∀ (l : List Char) (b : Bool),
    List.Chain' (fun a c : Char => ¬(a = ' ' ∧ c = ' ')) (collapseSpacesAux b l) ∧
    (b = true → (collapseSpacesAux b l).head? ≠ some ' ') := by
  intro l
  induction l with
  | nil => intro b; exact ⟨List.chain'_nil, fun _ => by simp [collapseSpacesAux]⟩
  | cons c rest ih =>
    intro b
    by_cases hc : c = ' '
    · subst hc
      cases b with
      | true =>
        rw [collapseSpacesAux, if_pos rfl, if_pos rfl]
        exact ⟨(ih true).1, fun _ => (ih true).2 rfl⟩
      | false =>
        rw [collapseSpacesAux, if_pos rfl, if_neg (by simp)]
        constructor
        · rw [List.chain'_cons']
          refine ⟨?_, (ih true).1⟩
          intro y hy hcontra
          exact (ih true).2 rfl (by rw [hy, hcontra.2])
        · intro h; cases h
    · rw [collapseSpacesAux, if_neg hc]
      constructor
      · rw [List.chain'_cons']
        exact ⟨fun y _ hcontra => hc hcontra.1, (ih false).1⟩
      · intro _
        simp only [List.head?_cons, ne_eq, Option.some.injEq]
        exact hc

theorem collapseSpacesAux_eq_self : ∀ (l : List Char) (b : Bool),
    List.Chain' (fun a c : Char => ¬(a = ' ' ∧ c = ' ')) l →
    (b = true → l.head? ≠ some ' ') →
    collapseSpacesAux b l = l := by
  intro l
  induction l with
  | nil => intro b _ _; rfl
  | cons c rest ih =>
    intro b hch hhead
    rw [List.chain'_cons'] at hch
    by_cases hc : c = ' '
    · subst hc
      cases b with
      | true => exact absurd List.head?_cons (hhead rfl)
      | false =>
        rw [collapseSpacesAux, if_pos rfl, if_neg (by simp)]
        rw [ih true hch.2 (fun _ h => ?_)]
        cases rest with
        | nil => cases h
        | cons y ys =>
          rw [List.head?_cons, Option.some.injEq] at h
          exact hch.1 y rfl ⟨rfl, h⟩
    · rw [collapseSpacesAux, if_neg hc]
      rw [ih false hch.2 (by intro h; cases h)]

theorem head?_dropWhile_not (p : Char → Bool) :
    ∀ (l : List Char) (a : Char), (l.dropWhile p).head? = some a → p a = false := by
  intro l
  induction l with
  | nil => intro a h; cases h
  | cons c rest ih =>
    intro a h
    rw [List.dropWhile_cons] at h
    by_cases hc : p c = true
    · rw [if_pos hc] at h
      exact ih a h
    · rw [if_neg hc] at h
      rw [List.head?_cons, Option.some.injEq] at h
      subst h
      exact Bool.eq_false_iff.mpr hc

theorem dropWhile_eq_self_of_head (p : Char → Bool) (l : List Char)
    (h : ∀ a, l.head? = some a → p a = false) : l.dropWhile p = l := by
  cases l with
  | nil => rfl
  | cons c rest =>
    rw [List.dropWhile_cons, if_neg]
    rw [h c rfl]
    simp

theorem trim_eq_self (l : List Char)
    (h1 : ∀ a, l.head? = some a → isPySpace a = false)
    (h2 : ∀ a, l.getLast? = some a → isPySpace a = false) : trim l = l := by
  unfold trim
  rw [dropWhile_eq_self_of_head _ l h1]
  rw [dropWhile_eq_self_of_head _ l.reverse
    (fun a ha => h2 a (by rwa [List.head?_reverse] at ha))]
  exact List.reverse_reverse l

theorem trim_prefix_dropWhile (l : List Char) :
    trim l <+: l.dropWhile isPySpace := by
  have h := List.reverse_prefix.mpr
    (List.dropWhile_suffix (l := (l.dropWhile isPySpace).reverse) isPySpace)
  rwa [List.reverse_reverse] at h

theorem isInfix_trim (l : List Char) : trim l <:+: l := by
  obtain ⟨t, ht⟩ := trim_prefix_dropWhile l
  obtain ⟨s, hs⟩ := List.dropWhile_suffix (l := l) isPySpace
  exact ⟨s, t, by rw [List.append_assoc, ht, hs]⟩

theorem trim_trim (l : List Char) : trim (trim l) = trim l := by
  apply trim_eq_self
  · intro a ha
    obtain ⟨t, ht⟩ := trim_prefix_dropWhile l
    apply head?_dropWhile_not isPySpace l a
    rw [← ht]
    cases htl : trim l with
    | nil => rw [htl] at ha; cases ha
    | cons x xs =>
      rw [htl] at ha
      rw [List.head?_cons, Option.some.injEq] at ha
      subst ha
      simp
  · intro a ha
    unfold trim at ha
    rw [List.getLast?_reverse] at ha
    exact head?_dropWhile_not isPySpace _ a ha

theorem normalize_text_no_newline (l : List Char) (h : '\n' ∉ l) :
    normalize_text l = trim (collapseSpaces l) := by
  have h1 : '\n' ∉ collapseSpaces l := fun hmem => by
    rcases mem_collapseSpacesAux l false '\n' hmem with h' | h'
    · exact h h'
    · exact absurd h' (by decide)
  unfold normalize_text
  unfold paraBreaks
  rw [paraBreaksF_no_newline _ _ h1, singleNewlines_no_newline _ _ h1]

/-- Claim C9 (amended): `normalize_text` is idempotent on every input that
contains no newline character (in general it is not: see the
counterexample, where a lone newline flanked by spaces leaves a multi-space
run behind). -/
theorem normalize_text_idempotent_no_newline (l : List Char) (h : '\n' ∉ l) :
    normalize_text (normalize_text l) = normalize_text l := by
  have hcol : '\n' ∉ collapseSpaces l := fun hmem => by
    rcases mem_collapseSpacesAux l false '\n' hmem with h' | h'
    · exact h h'
    · exact absurd h' (by decide)
  have hy : '\n' ∉ trim (collapseSpaces l) :=
    fun hm => hcol (((isInfix_trim (collapseSpaces l)).sublist).subset hm)
  rw [normalize_text_no_newline l h, normalize_text_no_newline _ hy]
  have hch : List.Chain' (fun a c : Char => ¬(a = ' ' ∧ c = ' '))
      (trim (collapseSpaces l)) :=
    List.Chain'.infix ((collapseSpacesAux_chain l false).1) (isInfix_trim _)
  rw [show collapseSpaces (trim (collapseSpaces l)) = trim (collapseSpaces l) from
    collapseSpacesAux_eq_self _ false hch (by intro hb; cases hb)]
  exact trim_trim _

/-- Witness for C9 (amended) on the newline-free input "a  b". -/
theorem normalize_text_idempotent_witness :
    normalize_text (normalize_text (("a  b").toList)) =
      normalize_text (("a  b").toList) :=
  normalize_text_idempotent_no_newline (("a  b").toList) (by decide)
